import Mathlib

/-!
Verification of the AI-Quiz-Generator repository against its specification.

The repository's only algorithmic component is the text Chunking Engine
(token counter, boundary splitter, overlap assembler, statistics).  Its
Python source (`backend/utils/text_chunker.py`) is not present under the
provided sources; only its documentation, test checklists and callers are.
Those parts are therefore modelled from the specification, as noted on each
definition.  The frontend JavaScript modules (`frontend/js/ui.js`,
`frontend/js/main.js`, `frontend/js/api.js`) are present and are embedded
from their source.

Document text is modelled as a list of characters (the spec's own data
model: "an immutable sequence of characters").
-/

/-- Document text: an immutable sequence of characters (spec section 3). -/
abbrev Text : Type := List Char

/-- Modelled from the spec: `count_tokens` of the missing
`backend/utils/text_chunker.py` (spec section 4.1).  The spec's fallback
contract is a character-count estimate at a documented ratio of
1 token to 4 characters, rounding any remainder up; the empty text has
zero tokens. -/
def countTokens (t : Text) : Nat :=
  (t.length + 3) / 4

/-- Index of the first occurrence of `sep` in `t` (`none` when absent).
Helper for the boundary splitter. -/
def findSub (sep : Text) : Text → Option Nat
  | [] => none
  | c :: cs =>
    if (c :: cs).take sep.length = sep then some 0
    else (findSub sep cs).map (· + 1)

/-- Modelled from the spec: one level of the boundary splitter of the
missing `backend/utils/text_chunker.py` (spec section 4.2 step 1): split
`t` on every occurrence of `sep`, keeping the separator attached to the
end of the preceding piece so that concatenation is lossless.  `fuel`
bounds the recursion; it is instantiated with `t.length`, which always
suffices. -/
def splitKeepSepF (sep : Text) : Nat → Text → List Text
  | _, [] => []
  | 0, t => [t]
  | fuel + 1, t =>
    match findSub sep t with
    | none => [t]
    | some i =>
      t.take (i + sep.length) :: splitKeepSepF sep fuel (t.drop (i + sep.length))

/-- Split on a separator, keeping it attached to the preceding piece. -/
def splitKeepSep (sep : Text) (t : Text) : List Text :=
  splitKeepSepF sep t.length t

/-- Modelled from the spec: the terminal character-level split of the
missing `backend/utils/text_chunker.py` (spec section 4.2 step 3): when
the separator list is exhausted, split purely by length into blocks of at
most `m` characters.  `fuel` bounds the recursion; instantiated with
`t.length`, which always suffices. -/
def charSplitF (m : Nat) : Nat → Text → List Text
  | _, [] => []
  | 0, t => [t]
  | fuel + 1, t => t.take m :: charSplitF m fuel (t.drop m)

/-- Character-level split into blocks of at most `m` characters. -/
def charSplit (m : Nat) (t : Text) : List Text :=
  charSplitF m t.length t

/-- Modelled from the spec: the prioritized separator list of the missing
`backend/utils/text_chunker.py` (spec section 3): paragraph break, line
break, sentence terminator, space; the terminal empty-string entry is
realised by the character-level split when this list is exhausted. -/
def separators : List Text :=
  [("\n\n").data, ("\n").data, (". ").data, (" ").data]

/-- Modelled from the spec: the recursive boundary splitter of the missing
`backend/utils/text_chunker.py` (spec section 4.2 steps 1-3): try the
first separator, accept every resulting piece whose token count fits the
budget, recurse with the remaining separators on oversized pieces, and
fall back to the character-level split when the list is exhausted. -/
def splitRec (tg : Nat) : List Text → Text → List Text
  | [], t => charSplit (4 * tg) t
  | sep :: rest, t =>
    (splitKeepSep sep t).flatMap fun p =>
      if countTokens p ≤ tg then [p] else splitRec tg rest p

/-- Modelled from the spec: the greedy merge pass of the missing
`backend/utils/text_chunker.py` (spec section 4.2 step 4): pieces below
the configured minimum of 10 tokens are merged into their neighbor when
the merged piece stays within the target size.  `fuel` bounds the
recursion; instantiated with the list length, which always suffices. -/
def mergeSmallF (tg : Nat) : Nat → List Text → List Text
  | _, [] => []
  | _, [p] => [p]
  | 0, l => l
  | fuel + 1, p :: q :: rest =>
    if countTokens p < 10 ∧ countTokens (p ++ q) ≤ tg then
      mergeSmallF tg fuel ((p ++ q) :: rest)
    else
      p :: mergeSmallF tg fuel (q :: rest)

/-- Greedy merge of pathologically small adjacent pieces. -/
def mergeSmall (tg : Nat) (l : List Text) : List Text :=
  mergeSmallF tg l.length l

/-- A produced chunk together with the length (in characters) of the
overlap region seeded from the previous chunk; internal record of the
overlap assembler. -/
structure ChunkRec where
  text : Text
  overlapLen : Nat
deriving DecidableEq

/-- The last `n` characters of `t`. -/
def takeLast (n : Nat) (t : Text) : Text :=
  t.drop (t.length - n)

/-- Modelled from the spec: the overlap seed of the missing
`backend/utils/text_chunker.py` (spec section 4.3): the trailing
`overlap_tokens` worth of content of the just-closed chunk, measured from
the end, truncated so that the seed plus the next piece still fits the
target budget (the spec's "truncated ... when feasible" latitude,
resolved in favor of the size-budget property of section 8). -/
def seedFor (tg ov : Nat) (prev p : Text) : Text :=
  takeLast (min (4 * min ov (tg - countTokens p)) prev.length) prev

/-- Modelled from the spec: the walk of the overlap assembler of the
missing `backend/utils/text_chunker.py` (spec section 4.3): accumulate
pieces into a running buffer (`seed` is the overlap region carried from
the previous chunk, `content` the new content); when the next piece would
push the buffer past the target, close the chunk and seed the next buffer
from the tail of the closed chunk. -/
def assembleGo (tg ov : Nat) : Text → Text → List Text → List ChunkRec
  | seed, content, [] =>
    if content = [] then [] else [⟨seed ++ content, seed.length⟩]
  | seed, content, p :: ps =>
    if content = [] then assembleGo tg ov seed p ps
    else if countTokens (seed ++ content ++ p) ≤ tg then
      assembleGo tg ov seed (content ++ p) ps
    else
      ⟨seed ++ content, seed.length⟩ ::
        assembleGo tg ov (seedFor tg ov (seed ++ content) p) p ps

/-- The ordered chunk records produced for `t` under a (validated)
configuration: boundary split, merge pass, then overlap assembly. -/
def chunkTextRecs (t : Text) (tg ov : Nat) : List ChunkRec :=
  assembleGo tg ov [] [] (mergeSmall tg (splitRec tg separators t))

/-- Modelled from the spec: the Chunk record of the missing
`backend/utils/text_chunker.py` (spec section 3): zero-based contiguous
id, text, character count, token count, and the caller-supplied
metadata attached identically to every chunk. -/
structure Chunk where
  chunk_id : Nat
  text : Text
  char_count : Nat
  token_count : Nat
  metadata : List (String × String)
deriving DecidableEq

/-- Modelled from the spec: the error taxonomy of the missing
`backend/utils/text_chunker.py` (spec section 7). -/
inductive ChunkError where
  | configurationError (msg : String)
deriving DecidableEq

/-- Turn chunk records into public chunks starting at id `i`, assigning
ids by a contiguous counter in emission order and attaching the caller
metadata to every chunk. -/
def mkChunksFrom (md : List (String × String)) (i : Nat) :
    List ChunkRec → List Chunk
  | [] => []
  | r :: rs =>
    { chunk_id := i
      text := r.text
      char_count := r.text.length
      token_count := countTokens r.text
      metadata := md } :: mkChunksFrom md (i + 1) rs

/-- Turn chunk records into public chunks, assigning zero-based ids in
emission order and attaching the caller metadata to every chunk. -/
def mkChunks (md : List (String × String)) (recs : List ChunkRec) : List Chunk :=
  mkChunksFrom md 0 recs

/-- Modelled from the spec: `chunk_text` of the missing
`backend/utils/text_chunker.py` (spec sections 4.2, 4.3, 6, 7):
validate the configuration before any splitting (ConfigurationError when
`overlap_tokens ≥ target_token_size` or `target_token_size ≤ 0`), then
split, merge and assemble.  Sizes are integers so that nonpositive
targets are expressible. -/
def chunk_text (t : Text) (tg ov : Int) (md : List (String × String)) :
    Except ChunkError (List Chunk) :=
  if tg ≤ 0 ∨ ov ≥ tg then
    .error (.configurationError ("overlap_tokens must be smaller than target_token_size and target_token_size must be positive"))
  else
    .ok (mkChunks md (chunkTextRecs t tg.toNat ov.toNat))

/-- Concatenation of the chunk texts with each chunk's seeded overlap
region removed: the reconstruction of spec section 8. -/
def reconstructRecs (recs : List ChunkRec) : Text :=
  (recs.map fun r => r.text.drop r.overlapLen).flatten

/-!
Frontend JavaScript embeddings.
-/

/-- Fuel-based floor logarithm: `logF b fuel n` is the floor of the base-`b`
logarithm of `n` when `fuel ≥ n` and `b ≥ 2`.  Embeds the JavaScript
computation `Math.floor(Math.log(bytes) / Math.log(1024))` of
`formatFileSize` (real-valued logarithms at these arguments; floating
point deviation at exact powers is not modelled). -/
def logF (b : Nat) : Nat → Nat → Nat
  | 0, _ => 0
  | fuel + 1, n => if n < b then 0 else logF b fuel (n / b) + 1

/-- The unit index `i` computed by `formatFileSize` for a positive byte
count. -/
def jsUnitIndex (bytes : Nat) : Nat :=
  logF 1024 bytes bytes

/-- JavaScript `Math.round`: round half away from zero upward, as a map
on exact rationals. -/
def roundHalfUp (x : ℚ) : Int :=
  ⌊x + 1 / 2⌋

/-- `Math.round(x * 100)` for the nonnegative values arising in
`formatFileSize`, i.e. the displayed value in hundredths. -/
def roundCenti (x : ℚ) : Nat :=
  (roundHalfUp (x * 100)).toNat

/-- Decimal rendering of `n` hundredths the way JavaScript prints the
number `n / 100` (trailing zeros dropped, no decimal point for whole
numbers). -/
def centiToString (n : Nat) : String :=
  let ip := n / 100
  let fr := n % 100
  if fr = 0 then toString ip
  else if fr % 10 = 0 then toString ip ++ (".") ++ toString (fr / 10)
  else if fr < 10 then toString ip ++ (".0") ++ toString fr
  else toString ip ++ (".") ++ toString fr

/-- Embeds `UI.formatFileSize` of `frontend/js/ui.js` (lines 239-247):
`'0 Bytes'` for zero, otherwise the value scaled by `1024^i` rounded to
two decimals, followed by the unit at index
`i = Math.floor(Math.log(bytes)/Math.log(1024))` in the four-element
`sizes` array; an out-of-range index makes JavaScript append the string
`"undefined"`, modelled by `Option.getD`. -/
def UIjs.formatFileSize (bytes : Nat) : String :=
  if bytes = 0 then ("0 Bytes")
  else
    let sizes : List String := [("Bytes"), ("KB"), ("MB"), ("GB")]
    let i := jsUnitIndex bytes
    centiToString (roundCenti ((bytes : ℚ) / (1024 : ℚ) ^ i)) ++ (" ") ++
      (sizes.get? i).getD ("undefined")

/-- Embeds `formatFileSize` of the `FIXED VERSION` UI module in
`frontend/js/main.js` (lines 430-436), which repeats the ui.js body
verbatim. -/
def MainJs.formatFileSize (bytes : Nat) : String :=
  if bytes = 0 then ("0 Bytes")
  else
    let sizes : List String := [("Bytes"), ("KB"), ("MB"), ("GB")]
    let i := jsUnitIndex bytes
    centiToString (roundCenti ((bytes : ℚ) / (1024 : ℚ) ^ i)) ++ (" ") ++
      (sizes.get? i).getD ("undefined")

/-- A parsed JSON response body as far as the api.js error paths inspect
it: an optional `error` field and the remaining payload, kept abstract. -/
structure RespBody where
  error : Option String
  payload : String
deriving DecidableEq

deriving instance DecidableEq for Except

/-- An HTTP response as api.js consumes it: the `ok` flag of the fetch
Response and the outcome of `response.json()` (which may itself throw,
modelled by `Except`). -/
structure HttpResponse where
  ok : Bool
  json : Except String RespBody
deriving DecidableEq

/-- JavaScript `a || b` for an optional string `a`: `b` when `a` is
absent or falsy (the empty string), otherwise `a`. -/
def jsOr (s : Option String) (d : String) : String :=
  match s with
  | none => d
  | some v => if v = ("") then d else v

/-- Embeds `API.uploadFile` of `frontend/js/api.js` (lines 15-36): a
thrown fetch or parse error propagates; otherwise the body is parsed
first, and a non-ok status throws `new Error(data.error || 'Upload
failed')`; an ok status returns the parsed body.  The argument is the
outcome of `fetch` (`.error` when the network request threw). -/
def uploadFile (r : Except String HttpResponse) : Except String RespBody :=
  match r with
  | .error e => .error e
  | .ok resp =>
    match resp.json with
    | .error e => .error e
    | .ok data =>
      if resp.ok then .ok data
      else .error (jsOr data.error ("Upload failed"))

/-- Embeds `API.checkHealth` of `frontend/js/api.js` (lines 98-107): the
parsed body is returned unchanged with no status inspection; only a
thrown fetch or parse error propagates. -/
def checkHealth (r : Except String HttpResponse) : Except String RespBody :=
  match r with
  | .error e => .error e
  | .ok resp => resp.json

/-- Modelled from the spec: the Chunk Set Statistics record of the
missing `backend/utils/text_chunker.py` (spec sections 3 and 4.4). -/
structure ChunkStats where
  total_chunks : Nat
  total_tokens : Nat
  avg_tokens_per_chunk : ℚ
  min_tokens : Nat
  max_tokens : Nat
deriving DecidableEq

/-- Modelled from the spec: `get_chunk_stats` of the missing
`backend/utils/text_chunker.py` (spec section 4.4): a pure aggregation of
a chunk set into total, average, minimum and maximum token counts. -/
def get_chunk_stats (cs : List Chunk) : ChunkStats :=
  let toks := cs.map fun c => c.token_count
  { total_chunks := cs.length
    total_tokens := toks.sum
    avg_tokens_per_chunk :=
      if cs.length = 0 then 0 else (toks.sum : ℚ) / (cs.length : ℚ)
    min_tokens := (toks.min?).getD 0
    max_tokens := (toks.max?).getD 0 }

/-- A chunk record carrying a given token count, with the fields the
statistics do not inspect left empty; used to state the spec's concrete
statistics example. -/
def statChunk (n : Nat) : Chunk :=
  { chunk_id := 0, text := [], char_count := 0, token_count := n, metadata := [] }

/-!
Lemma layer: token counting.
-/

theorem countTokens_append_le (a b : Text) :
    countTokens (a ++ b) ≤ countTokens a + countTokens b := by
  simp only [countTokens, List.length_append]
  omega

theorem countTokens_le_of_length_le {a : Text} {b : Nat}
    (h : a.length ≤ 4 * b) : countTokens a ≤ b := by
  simp only [countTokens]
  omega

theorem countTokens_mono {a b : Text} (h : a.length ≤ b.length) :
    countTokens a ≤ countTokens b := by
  simp only [countTokens]
  omega

/-!
Lemma layer: the boundary splitter is lossless and produces nonempty
pieces within the token budget.
-/

theorem splitKeepSepF_flatten (sep : Text) :
    ∀ (fuel : Nat) (t : Text), (splitKeepSepF sep fuel t).flatten = t := by
  intro fuel
  induction fuel with
  | zero =>
    intro t
    cases t <;> simp [splitKeepSepF]
  | succ f ih =>
    intro t
    cases t with
    | nil => simp [splitKeepSepF]
    | cons c cs =>
      simp only [splitKeepSepF]
      cases h : findSub sep (c :: cs) with
      | none => simp
      | some i =>
        simp only [List.flatten_cons, ih]
        exact List.take_append_drop _ _

theorem splitKeepSepF_ne_nil (sep : Text) (hs : sep ≠ []) :
    ∀ (fuel : Nat) (t : Text), ∀ p ∈ splitKeepSepF sep fuel t, p ≠ [] := by
  intro fuel
  induction fuel with
  | zero =>
    intro t p hp
    cases t with
    | nil => simp [splitKeepSepF] at hp
    | cons c cs =>
      simp [splitKeepSepF] at hp
      subst hp
      simp
  | succ f ih =>
    intro t p hp
    cases t with
    | nil => simp [splitKeepSepF] at hp
    | cons c cs =>
      simp only [splitKeepSepF] at hp
      cases h : findSub sep (c :: cs) with
      | none =>
        rw [h] at hp
        simp at hp
        subst hp
        simp
      | some i =>
        rw [h] at hp
        simp at hp
        rcases hp with hp | hp
        · subst hp
          have hlen : 1 ≤ sep.length := List.length_pos.mpr hs
          have hlt : ((c :: cs).take (i + sep.length)).length
              = min (i + sep.length) (c :: cs).length := List.length_take _ _
          intro hcontra
          rw [hcontra] at hlt
          simp only [List.length_nil, List.length_cons] at hlt
          omega
        · exact ih _ _ hp

theorem charSplitF_flatten (m : Nat) :
    ∀ (fuel : Nat) (t : Text), (charSplitF m fuel t).flatten = t := by
  intro fuel
  induction fuel with
  | zero =>
    intro t
    cases t <;> simp [charSplitF]
  | succ f ih =>
    intro t
    cases t with
    | nil => simp [charSplitF]
    | cons c cs =>
      simp only [charSplitF, List.flatten_cons, ih]
      exact List.take_append_drop _ _

theorem charSplitF_length_le (m : Nat) (hm : 1 ≤ m) :
    ∀ (fuel : Nat) (t : Text), t.length ≤ fuel →
      ∀ p ∈ charSplitF m fuel t, p.length ≤ m := by
  intro fuel
  induction fuel with
  | zero =>
    intro t ht p hp
    cases t with
    | nil => simp [charSplitF] at hp
    | cons c cs => simp at ht
  | succ f ih =>
    intro t ht p hp
    cases t with
    | nil => simp [charSplitF] at hp
    | cons c cs =>
      simp only [charSplitF] at hp
      rcases List.mem_cons.mp hp with hp | hp
      · subst hp
        simp [List.length_take]
      · refine ih _ ?_ _ hp
        simp only [List.length_drop, List.length_cons] at *
        omega

theorem charSplitF_ne_nil (m : Nat) (hm : 1 ≤ m) :
    ∀ (fuel : Nat) (t : Text), ∀ p ∈ charSplitF m fuel t, p ≠ [] := by
  intro fuel
  induction fuel with
  | zero =>
    intro t p hp
    cases t with
    | nil => simp [charSplitF] at hp
    | cons c cs =>
      simp [charSplitF] at hp
      subst hp
      simp
  | succ f ih =>
    intro t p hp
    cases t with
    | nil => simp [charSplitF] at hp
    | cons c cs =>
      simp only [charSplitF] at hp
      rcases List.mem_cons.mp hp with hp | hp
      · subst hp
        have hlt : ((c :: cs).take m).length = min m (c :: cs).length :=
          List.length_take _ _
        intro hcontra
        rw [hcontra] at hlt
        simp only [List.length_nil, List.length_cons] at hlt
        omega
      · exact ih _ _ hp

theorem flatten_flatMap_of_flatten_eq {l : List Text} {f : Text → List Text}
    (h : ∀ p ∈ l, (f p).flatten = p) : (l.flatMap f).flatten = l.flatten := by
  induction l with
  | nil => simp
  | cons a l ih =>
    simp only [List.flatMap_cons, List.flatten_append, List.flatten_cons]
    rw [h a (List.mem_cons_self a l), ih]
    intro p hp
    exact h p (List.mem_cons_of_mem _ hp)

theorem splitRec_flatten (tg : Nat) :
    ∀ (seps : List Text) (t : Text), (splitRec tg seps t).flatten = t := by
  intro seps
  induction seps with
  | nil =>
    intro t
    simp only [splitRec]
    exact charSplitF_flatten _ _ _
  | cons sep rest ih =>
    intro t
    simp only [splitRec]
    rw [flatten_flatMap_of_flatten_eq]
    · exact splitKeepSepF_flatten _ _ _
    · intro p hp
      by_cases h : countTokens p ≤ tg
      · simp [h]
      · simp only [h, if_false]
        exact ih p

theorem splitRec_le (tg : Nat) (htg : 1 ≤ tg) :
    ∀ (seps : List Text) (t : Text), ∀ p ∈ splitRec tg seps t,
      countTokens p ≤ tg := by
  intro seps
  induction seps with
  | nil =>
    intro t p hp
    simp only [splitRec, charSplit] at hp
    have hlen : p.length ≤ 4 * tg :=
      charSplitF_length_le _ (by omega) _ _ (le_refl _) _ hp
    exact countTokens_le_of_length_le hlen
  | cons sep rest ih =>
    intro t p hp
    simp only [splitRec] at hp
    rcases List.mem_flatMap.mp hp with ⟨q, _, hq⟩
    by_cases h : countTokens q ≤ tg
    · simp [h] at hq
      subst hq
      exact h
    · simp only [h, if_false] at hq
      exact ih _ _ hq

theorem splitRec_ne_nil (tg : Nat) (htg : 1 ≤ tg) :
    ∀ (seps : List Text) (t : Text), (∀ s ∈ seps, s ≠ []) →
      ∀ p ∈ splitRec tg seps t, p ≠ [] := by
  intro seps
  induction seps with
  | nil =>
    intro t _ p hp
    simp only [splitRec, charSplit] at hp
    exact charSplitF_ne_nil _ (by omega) _ _ _ hp
  | cons sep rest ih =>
    intro t hseps p hp
    simp only [splitRec] at hp
    rcases List.mem_flatMap.mp hp with ⟨q, hqmem, hq⟩
    by_cases h : countTokens q ≤ tg
    · simp [h] at hq
      subst hq
      exact splitKeepSepF_ne_nil sep (hseps sep (List.mem_cons_self _ _)) _ _ _ hqmem
    · simp only [h, if_false] at hq
      exact ih _ (fun s hs => hseps s (List.mem_cons_of_mem _ hs)) _ hq

theorem mergeSmallF_flatten (tg : Nat) :
    ∀ (fuel : Nat) (l : List Text), (mergeSmallF tg fuel l).flatten = l.flatten := by
  intro fuel
  induction fuel with
  | zero =>
    intro l
    match l with
    | [] => rfl
    | [p] => rfl
    | p :: q :: rest => rfl
  | succ f ih =>
    intro l
    match l with
    | [] => rfl
    | [p] => rfl
    | p :: q :: rest =>
      simp only [mergeSmallF]
      by_cases h : countTokens p < 10 ∧ countTokens (p ++ q) ≤ tg
      · rw [if_pos h, ih]
        simp [List.append_assoc]
      · rw [if_neg h, List.flatten_cons, ih]
        simp

theorem mergeSmallF_le (tg : Nat) :
    ∀ (fuel : Nat) (l : List Text), (∀ p ∈ l, countTokens p ≤ tg) →
      ∀ p ∈ mergeSmallF tg fuel l, countTokens p ≤ tg := by
  intro fuel
  induction fuel with
  | zero =>
    intro l hl p hp
    match l with
    | [] => exact hl p hp
    | [q] => exact hl p hp
    | q :: r :: rest => exact hl p hp
  | succ f ih =>
    intro l hl p hp
    match l with
    | [] => exact hl p hp
    | [q] => exact hl p hp
    | q :: r :: rest =>
      simp only [mergeSmallF] at hp
      by_cases h : countTokens q < 10 ∧ countTokens (q ++ r) ≤ tg
      · simp only [h, if_true] at hp
        refine ih _ ?_ _ hp
        intro x hx
        rcases List.mem_cons.mp hx with hx | hx
        · subst hx
          exact h.2
        · exact hl x (List.mem_cons_of_mem _ (List.mem_cons_of_mem _ hx))
      · simp only [h, if_false] at hp
        rcases List.mem_cons.mp hp with hp | hp
        · subst hp
          exact hl p (List.mem_cons_self _ _)
        · refine ih _ ?_ _ hp
          intro x hx
          exact hl x (List.mem_cons_of_mem _ hx)

theorem mergeSmallF_ne_nil (tg : Nat) :
    ∀ (fuel : Nat) (l : List Text), (∀ p ∈ l, p ≠ []) →
      ∀ p ∈ mergeSmallF tg fuel l, p ≠ [] := by
  intro fuel
  induction fuel with
  | zero =>
    intro l hl p hp
    match l with
    | [] => exact hl p hp
    | [q] => exact hl p hp
    | q :: r :: rest => exact hl p hp
  | succ f ih =>
    intro l hl p hp
    match l with
    | [] => exact hl p hp
    | [q] => exact hl p hp
    | q :: r :: rest =>
      simp only [mergeSmallF] at hp
      by_cases h : countTokens q < 10 ∧ countTokens (q ++ r) ≤ tg
      · simp only [h, if_true] at hp
        refine ih _ ?_ _ hp
        intro x hx
        rcases List.mem_cons.mp hx with hx | hx
        · subst hx
          have := hl q (List.mem_cons_self _ _)
          intro hc
          simp at hc
          exact this hc.1
        · exact hl x (List.mem_cons_of_mem _ (List.mem_cons_of_mem _ hx))
      · simp only [h, if_false] at hp
        rcases List.mem_cons.mp hp with hp | hp
        · subst hp
          exact hl p (List.mem_cons_self _ _)
        · refine ih _ ?_ _ hp
          intro x hx
          exact hl x (List.mem_cons_of_mem _ hx)

/-!
Lemma layer: the overlap assembler.
-/

theorem reconstructRecs_nil : reconstructRecs [] = [] := rfl

theorem reconstructRecs_cons (r : ChunkRec) (rest : List ChunkRec) :
    reconstructRecs (r :: rest) = r.text.drop r.overlapLen ++ reconstructRecs rest := by
  simp [reconstructRecs]

theorem seedFor_length (tg ov : Nat) (prev p : Text) :
    (seedFor tg ov prev p).length
      = min (4 * min ov (tg - countTokens p)) prev.length := by
  simp only [seedFor, takeLast, List.length_drop]
  omega

theorem seedFor_spec (tg ov : Nat) (prev p : Text)
    (hp : countTokens p ≤ tg) :
    countTokens (seedFor tg ov prev p ++ p) ≤ tg := by
  have h1 : (seedFor tg ov prev p).length ≤ 4 * min ov (tg - countTokens p) := by
    rw [seedFor_length]
    omega
  have h2 : countTokens (seedFor tg ov prev p) ≤ min ov (tg - countTokens p) :=
    countTokens_le_of_length_le h1
  have h3 := countTokens_append_le (seedFor tg ov prev p) p
  omega

theorem assembleGo_reconstruct (tg ov : Nat) :
    ∀ (ps : List Text) (seed content : Text),
      reconstructRecs (assembleGo tg ov seed content ps)
        = content ++ ps.flatten := by
  intro ps
  induction ps with
  | nil =>
    intro seed content
    simp only [assembleGo]
    by_cases h : content = []
    · simp [h, reconstructRecs]
    · rw [if_neg h]
      simp [reconstructRecs, List.drop_left]
  | cons p ps ih =>
    intro seed content
    simp only [assembleGo]
    by_cases hc : content = []
    · rw [if_pos hc, ih]
      subst hc
      simp
    · rw [if_neg hc]
      by_cases hfit : countTokens (seed ++ content ++ p) ≤ tg
      · rw [if_pos hfit, ih]
        simp [List.append_assoc]
      · rw [if_neg hfit, reconstructRecs_cons, ih]
        simp [List.append_assoc]

theorem assembleGo_le (tg ov : Nat) :
    ∀ (ps : List Text) (seed content : Text),
      (∀ p ∈ ps, countTokens p ≤ tg ∧ p ≠ []) →
      (content ≠ [] → countTokens (seed ++ content) ≤ tg) →
      (content = [] → seed = []) →
      ∀ r ∈ assembleGo tg ov seed content ps, countTokens r.text ≤ tg := by
  intro ps
  induction ps with
  | nil =>
    intro seed content _ hinv _ r hr
    simp only [assembleGo] at hr
    by_cases h : content = []
    · simp [h] at hr
    · rw [if_neg h] at hr
      simp at hr
      subst hr
      exact hinv h
  | cons p ps ih =>
    intro seed content hps hinv hempty r hr
    simp only [assembleGo] at hr
    by_cases hc : content = []
    · rw [if_pos hc] at hr
      have hseed : seed = [] := hempty hc
      refine ih seed p (fun q hq => hps q (List.mem_cons_of_mem _ hq)) ?_ ?_ r hr
      · intro _
        subst hseed
        simpa using (hps p (List.mem_cons_self _ _)).1
      · intro hp
        exact absurd hp (hps p (List.mem_cons_self _ _)).2
    · rw [if_neg hc] at hr
      by_cases hfit : countTokens (seed ++ content ++ p) ≤ tg
      · rw [if_pos hfit] at hr
        refine ih seed (content ++ p)
          (fun q hq => hps q (List.mem_cons_of_mem _ hq)) ?_ ?_ r hr
        · intro _
          rw [← List.append_assoc]
          exact hfit
        · intro habs
          rcases List.append_eq_nil.mp habs with ⟨h1, _⟩
          exact absurd h1 hc
      · rw [if_neg hfit] at hr
        rcases List.mem_cons.mp hr with hr | hr
        · subst hr
          exact hinv hc
        · refine ih _ p (fun q hq => hps q (List.mem_cons_of_mem _ hq)) ?_ ?_ r hr
          · intro _
            exact seedFor_spec tg ov _ p (hps p (List.mem_cons_self _ _)).1
          · intro hp
            exact absurd hp (hps p (List.mem_cons_self _ _)).2

theorem assembleGo_good (tg ov : Nat) (hov : 1 ≤ ov) :
    ∀ (ps : List Text) (seed content : Text),
      (∀ p ∈ ps, countTokens p ≤ tg ∧ p ≠ []) →
      content ≠ [] →
      countTokens (seed ++ content) ≤ tg →
      (1 ≤ seed.length ∨ countTokens (seed ++ content) = tg) →
      ∀ r ∈ assembleGo tg ov seed content ps,
        1 ≤ r.overlapLen ∨ countTokens r.text = tg := by
  intro ps
  induction ps with
  | nil =>
    intro seed content _ hc _ hgood r hr
    simp only [assembleGo] at hr
    rw [if_neg hc] at hr
    simp at hr
    subst hr
    exact hgood
  | cons p ps ih =>
    intro seed content hps hc hbuf hgood r hr
    simp only [assembleGo] at hr
    rw [if_neg hc] at hr
    by_cases hfit : countTokens (seed ++ content ++ p) ≤ tg
    · rw [if_pos hfit] at hr
      refine ih seed (content ++ p)
        (fun q hq => hps q (List.mem_cons_of_mem _ hq)) ?_ ?_ ?_ r hr
      · intro habs
        rcases List.append_eq_nil.mp habs with ⟨h1, _⟩
        exact absurd h1 hc
      · rw [← List.append_assoc]
        exact hfit
      · rcases hgood with hgood | hgood
        · exact Or.inl hgood
        · refine Or.inr ?_
          have hmono : countTokens (seed ++ content)
              ≤ countTokens (seed ++ (content ++ p)) := by
            refine countTokens_mono ?_
            simp [List.length_append]
          have hle : countTokens (seed ++ (content ++ p)) ≤ tg := by
            rw [← List.append_assoc]
            exact hfit
          omega
    · rw [if_neg hfit] at hr
      rcases List.mem_cons.mp hr with hr | hr
      · subst hr
        exact hgood
      · have hp := hps p (List.mem_cons_self _ _)
        refine ih _ p (fun q hq => hps q (List.mem_cons_of_mem _ hq))
          hp.2 (seedFor_spec tg ov _ p hp.1) ?_ r hr
        by_cases htok : countTokens p < tg
        · refine Or.inl ?_
          rw [seedFor_length]
          have hprev : 1 ≤ (seed ++ content).length := by
            have : content.length ≥ 1 := List.length_pos.mpr hc
            simp [List.length_append]
            omega
          omega
        · refine Or.inr ?_
          have htk : countTokens p = tg := by omega
          have hlen0 : (seedFor tg ov (seed ++ content) p).length = 0 := by
            rw [seedFor_length, htk]
            omega
          have hnil : seedFor tg ov (seed ++ content) p = [] :=
            List.length_eq_zero.mp hlen0
          rw [hnil]
          simpa using htk

theorem assembleGo_tail (tg ov : Nat) (hov : 1 ≤ ov) :
    ∀ (ps : List Text) (seed content : Text),
      (∀ p ∈ ps, countTokens p ≤ tg ∧ p ≠ []) →
      (content ≠ [] → countTokens (seed ++ content) ≤ tg) →
      (content = [] → seed = []) →
      ∀ r ∈ (assembleGo tg ov seed content ps).drop 1,
        1 ≤ r.overlapLen ∨ countTokens r.text = tg := by
  intro ps
  induction ps with
  | nil =>
    intro seed content _ _ _ r hr
    simp only [assembleGo] at hr
    by_cases h : content = []
    · simp [h] at hr
    · rw [if_neg h] at hr
      simp at hr
  | cons p ps ih =>
    intro seed content hps hinv hempty r hr
    simp only [assembleGo] at hr
    by_cases hc : content = []
    · rw [if_pos hc] at hr
      have hseed : seed = [] := hempty hc
      refine ih seed p (fun q hq => hps q (List.mem_cons_of_mem _ hq)) ?_ ?_ r hr
      · intro _
        subst hseed
        simpa using (hps p (List.mem_cons_self _ _)).1
      · intro hp
        exact absurd hp (hps p (List.mem_cons_self _ _)).2
    · rw [if_neg hc] at hr
      by_cases hfit : countTokens (seed ++ content ++ p) ≤ tg
      · rw [if_pos hfit] at hr
        refine ih seed (content ++ p)
          (fun q hq => hps q (List.mem_cons_of_mem _ hq)) ?_ ?_ r hr
        · intro _
          rw [← List.append_assoc]
          exact hfit
        · intro habs
          rcases List.append_eq_nil.mp habs with ⟨h1, _⟩
          exact absurd h1 hc
      · rw [if_neg hfit] at hr
        simp only [List.drop_succ_cons, List.drop_zero] at hr
        have hp := hps p (List.mem_cons_self _ _)
        refine assembleGo_good tg ov hov ps _ p
          (fun q hq => hps q (List.mem_cons_of_mem _ hq))
          hp.2 (seedFor_spec tg ov _ p hp.1) ?_ r hr
        by_cases htok : countTokens p < tg
        · refine Or.inl ?_
          rw [seedFor_length]
          have hprev : 1 ≤ (seed ++ content).length := by
            have : content.length ≥ 1 := List.length_pos.mpr hc
            simp [List.length_append]
            omega
          omega
        · refine Or.inr ?_
          have htk : countTokens p = tg := by omega
          have hlen0 : (seedFor tg ov (seed ++ content) p).length = 0 := by
            rw [seedFor_length, htk]
            omega
          have hnil : seedFor tg ov (seed ++ content) p = [] :=
            List.length_eq_zero.mp hlen0
          rw [hnil]
          simpa using htk

theorem assembleGo_single (tg ov : Nat) :
    ∀ (ps : List Text) (content : Text), content ≠ [] →
      countTokens (content ++ ps.flatten) < tg →
      assembleGo tg ov [] content ps = [⟨content ++ ps.flatten, 0⟩] := by
  intro ps
  induction ps with
  | nil =>
    intro content hc _
    simp only [assembleGo]
    rw [if_neg hc]
    simp
  | cons p ps ih =>
    intro content hc hlt
    simp only [assembleGo]
    rw [if_neg hc]
    have hfit : countTokens (([] : Text) ++ content ++ p) ≤ tg := by
      have hmono : countTokens (([] : Text) ++ content ++ p)
          ≤ countTokens (content ++ (p :: ps).flatten) := by
        refine countTokens_mono ?_
        simp [List.length_append]
      omega
    rw [if_pos hfit]
    have hne : content ++ p ≠ [] := by
      intro habs
      rcases List.append_eq_nil.mp habs with ⟨h1, _⟩
      exact absurd h1 hc
    have hlt' : countTokens ((content ++ p) ++ ps.flatten) < tg := by
      have : (content ++ p) ++ ps.flatten = content ++ (p :: ps).flatten := by
        simp [List.append_assoc]
      rw [this]
      exact hlt
    rw [ih (content ++ p) hne hlt']
    simp [List.append_assoc]

/-!
Lemma layer: the full pipeline.
-/

theorem separators_ne_nil : ∀ s ∈ separators, s ≠ [] := by decide

theorem chunkPieces_flatten (t : Text) (tg : Nat) :
    (mergeSmall tg (splitRec tg separators t)).flatten = t := by
  rw [mergeSmall, mergeSmallF_flatten, splitRec_flatten]

theorem chunkPieces_spec (t : Text) (tg : Nat) (htg : 1 ≤ tg) :
    ∀ p ∈ mergeSmall tg (splitRec tg separators t),
      countTokens p ≤ tg ∧ p ≠ [] := by
  intro p hp
  constructor
  · exact mergeSmallF_le tg _ _ (splitRec_le tg htg separators t) p hp
  · exact mergeSmallF_ne_nil tg _ _
      (splitRec_ne_nil tg htg separators t separators_ne_nil) p hp

theorem mkChunksFrom_texts (md : List (String × String)) :
    ∀ (i : Nat) (recs : List ChunkRec),
      (mkChunksFrom md i recs).map Chunk.text = recs.map ChunkRec.text := by
  intro i recs
  induction recs generalizing i with
  | nil => rfl
  | cons r rs ih => simp [mkChunksFrom, ih]

theorem mem_mkChunksFrom {md : List (String × String)} :
    ∀ {i : Nat} {recs : List ChunkRec} {c : Chunk}, c ∈ mkChunksFrom md i recs →
      ∃ r ∈ recs, c.token_count = countTokens r.text := by
  intro i recs
  induction recs generalizing i with
  | nil =>
    intro c hc
    simp [mkChunksFrom] at hc
  | cons r rs ih =>
    intro c hc
    rcases List.mem_cons.mp hc with hc | hc
    · exact ⟨r, List.mem_cons_self _ _, by rw [hc]⟩
    · rcases ih hc with ⟨r', hr', heq⟩
      exact ⟨r', List.mem_cons_of_mem _ hr', heq⟩

theorem chunkTextRecs_reconstruct (t : Text) (tg ov : Nat) :
    reconstructRecs (chunkTextRecs t tg ov) = t := by
  rw [chunkTextRecs, assembleGo_reconstruct]
  simp [chunkPieces_flatten]

theorem chunkTextRecs_le (t : Text) (tg ov : Nat) (htg : 1 ≤ tg) :
    ∀ r ∈ chunkTextRecs t tg ov, countTokens r.text ≤ tg := by
  rw [chunkTextRecs]
  refine assembleGo_le tg ov _ [] [] (chunkPieces_spec t tg htg) ?_ ?_
  · intro h
    exact absurd rfl h
  · intro _
    rfl

theorem chunk_text_ok (t : Text) (tg ov : Int) (md : List (String × String))
    (htg : 0 < tg) (hov : ov < tg) :
    chunk_text t tg ov md
      = .ok (mkChunks md (chunkTextRecs t tg.toNat ov.toNat)) := by
  rw [chunk_text, if_neg]
  omega

/-!
Claim theorems for the chunking engine.
-/

/-- Claim C1: for every document text and valid configuration
(`target_token_size > 0`, `0 ≤ overlap_tokens < target_token_size`),
`chunk_text` succeeds and concatenating the texts of the returned chunks
with the overlap regions removed reconstructs the original document
exactly, in order, with no gaps beyond the intentional overlap; the
public chunk texts coincide with the underlying records. -/
theorem claim_C1 (t : Text) (tg ov : Int) (md : List (String × String))
    (htg : 0 < tg) (hov : ov < tg) :
    chunk_text t tg ov md
        = .ok (mkChunks md (chunkTextRecs t tg.toNat ov.toNat)) ∧
    reconstructRecs (chunkTextRecs t tg.toNat ov.toNat) = t ∧
    (mkChunks md (chunkTextRecs t tg.toNat ov.toNat)).map Chunk.text
        = (chunkTextRecs t tg.toNat ov.toNat).map ChunkRec.text := by
  refine ⟨chunk_text_ok t tg ov md htg hov, chunkTextRecs_reconstruct _ _ _, ?_⟩
  exact mkChunksFrom_texts md 0 _

/-- Witness for claim C1 at a concrete document and configuration. -/
theorem claim_C1_witness :
    (0 : Int) < 2 ∧ (1 : Int) < 2 ∧
    (chunk_text (("hello world, ok").data) 2 1 []
        = .ok (mkChunks [] (chunkTextRecs (("hello world, ok").data) 2 1)) ∧
      reconstructRecs (chunkTextRecs (("hello world, ok").data) 2 1)
        = ("hello world, ok").data ∧
      (mkChunks [] (chunkTextRecs (("hello world, ok").data) 2 1)).map Chunk.text
        = (chunkTextRecs (("hello world, ok").data) 2 1).map ChunkRec.text) := by
  refine ⟨by norm_num, by norm_num, ?_⟩
  exact claim_C1 (("hello world, ok").data) 2 1 [] (by norm_num) (by norm_num)

/-- Claim C2: under a valid configuration every returned chunk — not
only every chunk except the last — has `token_count` at most
`target_token_size`; the oversized-unbreakable-token exception never
arises because the terminal character-level split guarantees compliance,
so the claimed bound holds without the flagged exception. -/
theorem claim_C2 (t : Text) (tg ov : Int) (md : List (String × String))
    (cs : List Chunk) (htg : 0 < tg) (hov : ov < tg)
    (h : chunk_text t tg ov md = .ok cs) :
    ∀ c ∈ cs, (c.token_count : Int) ≤ tg := by
  rw [chunk_text_ok t tg ov md htg hov] at h
  have hcs : cs = mkChunks md (chunkTextRecs t tg.toNat ov.toNat) :=
    (Except.ok.injEq _ _ ▸ congrArg id h).symm ▸ by
      cases h
      rfl
  subst hcs
  intro c hc
  rcases mem_mkChunksFrom hc with ⟨r, hr, heq⟩
  have := chunkTextRecs_le t tg.toNat ov.toNat (by omega) r hr
  omega

/-- Witness for claim C2 at a concrete document and configuration. -/
theorem claim_C2_witness :
    (0 : Int) < 2 ∧ (1 : Int) < 2 ∧
    chunk_text (("abcdefghijklmnop").data) 2 1 []
        = .ok (mkChunks [] (chunkTextRecs (("abcdefghijklmnop").data) 2 1)) ∧
    ∀ c ∈ mkChunks [] (chunkTextRecs (("abcdefghijklmnop").data) 2 1),
      (c.token_count : Int) ≤ 2 := by
  refine ⟨by norm_num, by norm_num, by decide, ?_⟩
  exact claim_C2 (("abcdefghijklmnop").data) 2 1 []
    (mkChunks [] (chunkTextRecs (("abcdefghijklmnop").data) 2 1))
    (by norm_num) (by norm_num) (by decide)

/-- Claim C3: `chunk_text` raises `ConfigurationError` — producing no
chunks, before any splitting — exactly when `overlap_tokens ≥
target_token_size` or `target_token_size ≤ 0`; in particular the
configuration `(target_token_size = 100, overlap_tokens = 150)` fails
immediately on any input. -/
theorem claim_C3 (t : Text) (tg ov : Int) (md : List (String × String)) :
    ((∃ e, chunk_text t tg ov md = .error e) ↔ (ov ≥ tg ∨ tg ≤ 0)) ∧
    (∃ msg, chunk_text t 100 150 md
        = .error (.configurationError msg)) := by
  constructor
  · constructor
    · rintro ⟨e, he⟩
      by_cases h : tg ≤ 0 ∨ ov ≥ tg
      · tauto
      · rw [chunk_text, if_neg h] at he
        cases he
    · intro h
      rw [chunk_text, if_pos (by tauto)]
      exact ⟨_, rfl⟩
  · rw [chunk_text, if_pos (by norm_num)]
    exact ⟨_, rfl⟩

/-- Claim C4: for empty input text and any valid configuration,
`chunk_text` returns the empty chunk sequence and raises no error. -/
theorem claim_C4 (tg ov : Int) (md : List (String × String))
    (htg : 0 < tg) (hov : ov < tg) :
    chunk_text [] tg ov md = .ok [] := by
  rw [chunk_text_ok [] tg ov md htg hov]
  have hsplit : splitRec tg.toNat separators [] = [] := by
    simp [separators, splitRec, splitKeepSep, splitKeepSepF]
  rw [chunkTextRecs, hsplit]
  rfl

/-- Witness for claim C4 at the spec's concrete configuration:
`chunk_text("", 500, 100, {})` returns an empty sequence. -/
theorem claim_C4_witness :
    (0 : Int) < 500 ∧ (100 : Int) < 500 ∧
    chunk_text [] 500 100 [] = .ok [] := by
  exact ⟨by norm_num, by norm_num, claim_C4 500 100 [] (by norm_num) (by norm_num)⟩

/-- Counterexample to claim C5 as stated: with `target_token_size = 2`
and `overlap_tokens = 1` the separator-free sixteen-character document
splits into two chunks whose texts share no overlapping text at all —
no nonempty tail of the first chunk equals the corresponding head of the
second chunk, and the second chunk's seeded overlap region is empty —
because the piece opening the second chunk already fills the whole token
budget. -/
theorem claim_C5_counterexample :
    chunkTextRecs (("abcdefghijklmnop").data) 2 1
        = [⟨("abcdefgh").data, 0⟩, ⟨("ijklmnop").data, 0⟩] ∧
    (∀ k ∈ List.range 9, 1 ≤ k →
      takeLast k (("abcdefgh").data) ≠ (("ijklmnop").data).take k) := by
  decide

/-- Claim C5, amended: under a valid configuration with
`overlap_tokens > 0`, every chunk after the first either carries a
nonempty overlap region seeded from its predecessor's tail or already
has token count equal to the full target budget (in which case the
overlap may be empty, as the counterexample forces); and a nonempty
document whose token count is below the target yields exactly one chunk
equal to the whole text with zero overlap. -/
theorem claim_C5 (t : Text) (tg ov : Int) (md : List (String × String))
    (htg : 0 < tg) (hov0 : 0 < ov) (hov : ov < tg) :
    (∀ i r, (chunkTextRecs t tg.toNat ov.toNat)[i + 1]? = some r →
        1 ≤ r.overlapLen ∨ countTokens r.text = tg.toNat) ∧
    (t ≠ [] → countTokens t < tg.toNat →
        chunkTextRecs t tg.toNat ov.toNat = [⟨t, 0⟩] ∧
        chunk_text t tg ov md
          = .ok [⟨0, t, t.length, countTokens t, md⟩]) := by
  constructor
  · intro i r hr
    have hmem : r ∈ (chunkTextRecs t tg.toNat ov.toNat).drop 1 := by
      have h1 : ((chunkTextRecs t tg.toNat ov.toNat).drop 1)[i]? = some r := by
        rw [List.getElem?_drop, Nat.add_comm]
        exact hr
      exact List.getElem?_mem h1
    refine assembleGo_tail tg.toNat ov.toNat (by omega) _ [] []
      (chunkPieces_spec t tg.toNat (by omega)) ?_ ?_ r hmem
    · intro h
      exact absurd rfl h
    · intro _
      rfl
  · intro hne hlt
    have hflat := chunkPieces_flatten t tg.toNat
    have hrecs : chunkTextRecs t tg.toNat ov.toNat = [⟨t, 0⟩] := by
      rw [chunkTextRecs]
      cases hps : mergeSmall tg.toNat (splitRec tg.toNat separators t) with
      | nil =>
        rw [hps] at hflat
        simp only [List.flatten_nil] at hflat
        exact absurd hflat.symm hne
      | cons p ps =>
        rw [hps] at hflat
        have hp : p ≠ [] :=
          (chunkPieces_spec t tg.toNat (by omega) p
            (hps ▸ List.mem_cons_self _ _)).2
        have hstep : assembleGo tg.toNat ov.toNat [] [] (p :: ps)
            = assembleGo tg.toNat ov.toNat [] p ps := by
          simp only [assembleGo]
          simp
        rw [hstep]
        have hfl : p ++ ps.flatten = t := by
          simpa using hflat
        have hlt' : countTokens (p ++ ps.flatten) < tg.toNat := by
          rw [hfl]
          exact hlt
        rw [assembleGo_single tg.toNat ov.toNat ps p hp hlt', hfl]
    refine ⟨hrecs, ?_⟩
    rw [chunk_text_ok t tg ov md htg hov, hrecs]
    rfl

/-- Witness for claim C5 at a concrete document and configuration. -/
theorem claim_C5_witness :
    (0 : Int) < 2 ∧ (0 : Int) < 1 ∧ (1 : Int) < 2 ∧
    ((∀ i r, (chunkTextRecs (("hi").data) 2 1)[i + 1]? = some r →
        1 ≤ r.overlapLen ∨ countTokens r.text = 2) ∧
      (("hi").data ≠ [] → countTokens (("hi").data) < 2 →
        chunkTextRecs (("hi").data) 2 1 = [⟨("hi").data, 0⟩] ∧
        chunk_text (("hi").data) 2 1 []
          = .ok [⟨0, ("hi").data, (("hi").data).length,
              countTokens (("hi").data), []⟩])) := by
  refine ⟨by norm_num, by norm_num, by norm_num, ?_⟩
  exact claim_C5 (("hi").data) 2 1 [] (by norm_num) (by norm_num) (by norm_num)

/-- Claim C6: `count_tokens` is a total, deterministic, pure function
into the nonnegative integers: it returns 0 exactly on the empty text
and is bounded by the character count, so it never fails on any input. -/
theorem claim_C6 :
    countTokens [] = 0 ∧
    (∀ t : Text, countTokens t = 0 ↔ t = []) ∧
    (∀ t : Text, countTokens t ≤ t.length) := by
  refine ⟨rfl, ?_, ?_⟩
  · intro t
    constructor
    · intro h
      have : t.length = 0 := by
        simp only [countTokens] at h
        omega
      exact List.length_eq_zero.mp this
    · intro h
      subst h
      rfl
  · intro t
    simp only [countTokens]
    cases t with
    | nil => simp
    | cons c cs =>
      simp only [List.length_cons]
      omega

/-- Claim C7: `get_chunk_stats` is a pure aggregation: the reported
total token count is the sum of the per-chunk token counts, the average
is the total divided by the number of chunks, and on the spec's example
chunk set of token sizes 500, 480 and 230 it reports 3 chunks, 1210
total tokens and an average within 0.1 of 403.3. -/
theorem claim_C7 :
    (∀ cs : List Chunk,
      (get_chunk_stats cs).total_chunks = cs.length ∧
      (get_chunk_stats cs).total_tokens
          = (cs.map fun c => c.token_count).sum ∧
      (cs ≠ [] → (get_chunk_stats cs).avg_tokens_per_chunk
          = ((get_chunk_stats cs).total_tokens : ℚ)
            / ((get_chunk_stats cs).total_chunks : ℚ))) ∧
    (get_chunk_stats [statChunk 500, statChunk 480, statChunk 230]).total_chunks
        = 3 ∧
    (get_chunk_stats [statChunk 500, statChunk 480, statChunk 230]).total_tokens
        = 1210 ∧
    (get_chunk_stats
        [statChunk 500, statChunk 480, statChunk 230]).avg_tokens_per_chunk
        = (1210 : ℚ) / 3 ∧
    |(get_chunk_stats
        [statChunk 500, statChunk 480, statChunk 230]).avg_tokens_per_chunk
        - 4033 / 10| < 1 / 10 := by
  have havg : (get_chunk_stats
      [statChunk 500, statChunk 480, statChunk 230]).avg_tokens_per_chunk
      = (1210 : ℚ) / 3 := by
    norm_num [get_chunk_stats, statChunk]
  refine ⟨?_, rfl, rfl, havg, ?_⟩
  · intro cs
    refine ⟨rfl, rfl, ?_⟩
    intro hne
    have hlen : ¬cs.length = 0 := by
      intro h
      exact hne (List.length_eq_zero.mp h)
    simp only [get_chunk_stats]
    rw [if_neg hlen]
  · rw [havg, abs_lt]
    constructor <;> norm_num

/-!
Claim theorems for the frontend JavaScript.
-/

theorem logF_ge (b : Nat) (hb : 2 ≤ b) :
    ∀ (k fuel n : Nat), n ≤ fuel → b ^ k ≤ n → k ≤ logF b fuel n := by
  intro k
  induction k with
  | zero =>
    intro fuel n _ _
    exact Nat.zero_le _
  | succ k ih =>
    intro fuel n hfuel hpow
    have hbn : b ≤ n := le_trans (Nat.le_self_pow (by omega) b) hpow
    cases fuel with
    | zero => omega
    | succ f =>
      simp only [logF]
      rw [if_neg (by omega)]
      have ihh : k ≤ logF b f (n / b) := by
        refine ih f (n / b) ?_ ?_
        · have : n / b < n := Nat.div_lt_self (by omega) (by omega)
          omega
        · rw [Nat.le_div_iff_mul_le (by omega)]
          calc b ^ k * b = b ^ (k + 1) := by ring
            _ ≤ n := hpow
      omega

/-- Claim C8: `UI.formatFileSize` is not total over byte counts: for
every `bytes ≥ 1024^4` the computed unit index is at least 4, which is
past the end of the four-element `sizes` array, so the returned string
ends in `undefined` instead of a valid unit; for `bytes = 0` it returns
`0 Bytes`. -/
theorem claim_C8 :
    (∀ bytes : Nat, 1024 ^ 4 ≤ bytes →
      4 ≤ jsUnitIndex bytes ∧
      ([("Bytes"), ("KB"), ("MB"), ("GB")] : List String)[jsUnitIndex bytes]?
          = none ∧
      ∃ pre : String, UIjs.formatFileSize bytes = pre ++ ("undefined")) ∧
    UIjs.formatFileSize 0 = ("0 Bytes") := by
  constructor
  · intro bytes hbig
    have hpos : 0 < 1024 ^ 4 := by positivity
    have hb0 : bytes ≠ 0 := by omega
    have hidx : 4 ≤ jsUnitIndex bytes :=
      logF_ge 1024 (by norm_num) 4 bytes bytes (le_refl _) hbig
    have hnone :
        ([("Bytes"), ("KB"), ("MB"), ("GB")] : List String)[jsUnitIndex bytes]?
          = none := by
      refine List.getElem?_eq_none ?_
      simpa using hidx
    refine ⟨hidx, hnone, ?_⟩
    refine ⟨centiToString
      (roundCenti ((bytes : ℚ) / (1024 : ℚ) ^ jsUnitIndex bytes)) ++ (" "), ?_⟩
    simp only [UIjs.formatFileSize]
    rw [if_neg hb0]
    have hget : ([("Bytes"), ("KB"), ("MB"), ("GB")] : List String).get?
        (jsUnitIndex bytes) = none := by
      rw [List.get?_eq_getElem?]
      exact hnone
    simp only [hget, Option.getD_none]
  · rfl

/-- Witness for claim C8 at the concrete byte count `1024^4`. -/
theorem claim_C8_witness :
    1024 ^ 4 ≤ 1024 ^ 4 ∧
    (4 ≤ jsUnitIndex (1024 ^ 4) ∧
      ([("Bytes"), ("KB"), ("MB"), ("GB")] : List String)[jsUnitIndex
          (1024 ^ 4)]? = none ∧
      ∃ pre : String, UIjs.formatFileSize (1024 ^ 4) = pre ++ ("undefined")) :=
  ⟨le_refl _, claim_C8.1 (1024 ^ 4) (le_refl _)⟩

/-- Claim C9: the `formatFileSize` of the original UI module in ui.js
and the `formatFileSize` of the FIXED VERSION UI module in main.js are
extensionally equal: both return `0 Bytes` for zero and otherwise the
value scaled by `1024^i` rounded to two decimals followed by the unit at
index `i`; their bodies are verbatim identical. -/
theorem claim_C9 :
    (∀ bytes : Nat, UIjs.formatFileSize bytes = MainJs.formatFileSize bytes) ∧
    UIjs.formatFileSize 0 = ("0 Bytes") ∧
    MainJs.formatFileSize 0 = ("0 Bytes") :=
  ⟨fun _ => rfl, rfl, rfl⟩

/-- Counterexample to claim C10 as stated: a non-ok response whose body
HAS an `error` field — present but equal to the empty string — makes
`API.uploadFile` throw `Upload failed` rather than the error field's
value, because JavaScript `data.error || 'Upload failed'` treats the
empty string as falsy. -/
theorem claim_C10_counterexample :
    (⟨some (""), ("body")⟩ : RespBody).error = some ("") ∧
    uploadFile (.ok ⟨false, .ok ⟨some (""), ("body")⟩⟩)
        = .error ("Upload failed") ∧
    ("Upload failed") ≠ ("") := by
  decide

/-- Claim C10, amended: for a non-ok response, `API.uploadFile` throws
an Error whose message is the body's `error` field when that field is
present and nonempty, and `Upload failed` when the field is absent or
empty (JavaScript falsiness of the empty string); for an ok response it
returns the parsed body; `API.checkHealth` never inspects the HTTP
status — it returns the parsed body unchanged for every status and
fails exactly when the network request or the JSON parsing failed. -/
theorem claim_C10 (resp : HttpResponse) (data : RespBody) (e : String) :
    (resp.json = .ok data → resp.ok = false →
      uploadFile (.ok resp) = .error (jsOr data.error ("Upload failed")) ∧
      (∀ m, data.error = some m → m ≠ ("") →
        jsOr data.error ("Upload failed") = m) ∧
      (data.error = none ∨ data.error = some ("") →
        jsOr data.error ("Upload failed") = ("Upload failed"))) ∧
    (resp.json = .ok data → resp.ok = true → uploadFile (.ok resp) = .ok data) ∧
    (checkHealth (.ok resp) = resp.json) ∧
    (checkHealth (.error e) = .error e) ∧
    ((checkHealth (.ok resp)).isOk ↔ resp.json.isOk) := by
  refine ⟨?_, ?_, rfl, rfl, Iff.rfl⟩
  · intro hjson hok
    refine ⟨?_, ?_, ?_⟩
    · simp [uploadFile, hjson, hok]
    · intro m hm hmne
      simp [jsOr, hm, hmne]
    · rintro (h | h) <;> simp [jsOr, h]
  · intro hjson hok
    simp [uploadFile, hjson, hok]

/-- Witness for claim C10 at a concrete non-ok response with a nonempty
error field. -/
theorem claim_C10_witness :
    (HttpResponse.mk false (.ok ⟨some ("boom"), ("p")⟩)).json
        = .ok ⟨some ("boom"), ("p")⟩ ∧
    (HttpResponse.mk false (.ok ⟨some ("boom"), ("p")⟩)).ok = false ∧
    uploadFile (.ok ⟨false, .ok ⟨some ("boom"), ("p")⟩⟩)
        = .error (jsOr (⟨some ("boom"), ("p")⟩ : RespBody).error
            ("Upload failed")) ∧
    checkHealth (.ok ⟨false, .ok ⟨some ("boom"), ("p")⟩⟩)
        = (HttpResponse.mk false (.ok ⟨some ("boom"), ("p")⟩)).json := by
  have h := claim_C10 ⟨false, .ok ⟨some ("boom"), ("p")⟩⟩
    ⟨some ("boom"), ("p")⟩ ("")
  exact ⟨rfl, rfl, (h.1 rfl rfl).1, h.2.2.1⟩
